import Mathlib

/-!
Verification development for the mqttui interactive topic-tree core:
the topic tree data model, the visibility calculation over an open-set,
the per-frame draw pipeline and the payload preview formatter.
-/

namespace Mqttui

/-- The tree node type from src/interactive/topic_tree_entry.rs.
Payload bytes are modelled as lists of natural numbers (byte values). -/
inductive TopicTreeEntry : Type where
  | mk (topic : String) (leaf : String) (messages : Nat)
       (last_payload : Option (List Nat)) (topics_below : Nat)
       (messages_below : Nat) (entries_below : List TopicTreeEntry) : TopicTreeEntry

mutual

def TopicTreeEntry.decEq : (a b : TopicTreeEntry) → Decidable (a = b)
  | .mk t1 l1 m1 p1 tb1 mb1 c1, .mk t2 l2 m2 p2 tb2 mb2 c2 =>
    if h1 : t1 = t2 then
      if h2 : l1 = l2 then
        if h3 : m1 = m2 then
          if h4 : p1 = p2 then
            if h5 : tb1 = tb2 then
              if h6 : mb1 = mb2 then
                match TopicTreeEntry.decEqList c1 c2 with
                | isTrue h7 =>
                    isTrue (by subst h1 h2 h3 h4 h5 h6 h7; rfl)
                | isFalse h7 => isFalse (by intro h; injection h; contradiction)
              else isFalse (by intro h; injection h; contradiction)
            else isFalse (by intro h; injection h; contradiction)
          else isFalse (by intro h; injection h; contradiction)
        else isFalse (by intro h; injection h; contradiction)
      else isFalse (by intro h; injection h; contradiction)
    else isFalse (by intro h; injection h; contradiction)

def TopicTreeEntry.decEqList : (a b : List TopicTreeEntry) → Decidable (a = b)
  | [], [] => isTrue rfl
  | [], _ :: _ => isFalse (by intro h; exact List.noConfusion h)
  | _ :: _, [] => isFalse (by intro h; exact List.noConfusion h)
  | x :: xs, y :: ys =>
    match TopicTreeEntry.decEq x y with
    | isTrue hxy =>
      match TopicTreeEntry.decEqList xs ys with
      | isTrue hs => isTrue (by rw [hxy, hs])
      | isFalse hs => isFalse (by intro h; injection h; contradiction)
    | isFalse hxy => isFalse (by intro h; injection h; contradiction)

end

instance : DecidableEq TopicTreeEntry := TopicTreeEntry.decEq

instance : DecidableEq (List TopicTreeEntry) := TopicTreeEntry.decEqList

namespace TopicTreeEntry

def topic : TopicTreeEntry → String
  | .mk t _ _ _ _ _ _ => t

def leaf : TopicTreeEntry → String
  | .mk _ l _ _ _ _ _ => l

def messages : TopicTreeEntry → Nat
  | .mk _ _ m _ _ _ _ => m

def last_payload : TopicTreeEntry → Option (List Nat)
  | .mk _ _ _ p _ _ _ => p

def topics_below : TopicTreeEntry → Nat
  | .mk _ _ _ _ tb _ _ => tb

def messages_below : TopicTreeEntry → Nat
  | .mk _ _ _ _ _ mb _ => mb

def entries_below : TopicTreeEntry → List TopicTreeEntry
  | .mk _ _ _ _ _ _ c => c

/-- The example forest from TopicTreeEntry::examples (same as MqttHistory::example):
roots foo (children bar, test) and test; payloads are the UTF-8 bytes of
"D", "B" and "C". -/
def examples : List TopicTreeEntry :=
  [ .mk "foo" "foo" 0 none 2 2
      [ .mk "foo/bar" "bar" 1 (some [68]) 0 0 [],
        .mk "foo/test" "test" 1 (some [66]) 0 0 [] ],
    .mk "test" "test" 2 (some [67]) 0 0 [] ]

end TopicTreeEntry

/-- The visibility calculation from src/interactive/topic_tree_entry.rs
(get_visible): push every entry of the forest; when its topic is a member
of the open-set, append the recursive visibility of its children before
moving on.  The open-set (a Rust HashSet of strings) is modelled as a list
with membership. -/
def getVisible (opened : List String) : List TopicTreeEntry → List TopicTreeEntry
  | [] => []
  | .mk t l m p tb mb children :: rest =>
      .mk t l m p tb mb children ::
        ((if t ∈ opened then getVisible opened children else []) ++
          getVisible opened rest)

mutual

/-- A second definition of visibility, following the specification text:
a visible node is itself followed, exactly when its own topic is a member
of the open-set, by the recursive visibility of its immediate children
(pre-order depth-first). -/
def visibleSpec (opened : List String) : TopicTreeEntry → List TopicTreeEntry
  | .mk t l m p tb mb children =>
      .mk t l m p tb mb children ::
        (if t ∈ opened then visibleSpecF opened children else [])

/-- Forest version of visibleSpec: concatenation of the per-root flattenings. -/
def visibleSpecF (opened : List String) : List TopicTreeEntry → List TopicTreeEntry
  | [] => []
  | e :: rest => visibleSpec opened e ++ visibleSpecF opened rest

end

/-- All nodes of a forest, in pre-order. -/
def allNodes : List TopicTreeEntry → List TopicTreeEntry
  | [] => []
  | .mk t l m p tb mb children :: rest =>
      .mk t l m p tb mb children :: (allNodes children ++ allNodes rest)

theorem getVisible_eq_visibleSpecF (opened : List String) :
    ∀ f : List TopicTreeEntry, getVisible opened f = visibleSpecF opened f
  | [] => by simp [getVisible, visibleSpecF]
  | .mk t l m p tb mb children :: rest => by
      simp only [getVisible, visibleSpecF, visibleSpec,
        getVisible_eq_visibleSpecF opened children,
        getVisible_eq_visibleSpecF opened rest]
      by_cases h : t ∈ opened <;> simp [h]

theorem root_mem_getVisible (opened : List String) :
    ∀ (f : List TopicTreeEntry) (e : TopicTreeEntry), e ∈ f → e ∈ getVisible opened f
  | .mk t l m p tb mb children :: rest, e, he => by
      rcases List.mem_cons.mp he with h | h
      · subst h; simp [getVisible]
      · simp only [getVisible, List.mem_cons, List.mem_append]
        exact Or.inr (Or.inr (root_mem_getVisible opened rest e h))

/-- The topics of all nodes of a forest, in pre-order. -/
def forestTopics (f : List TopicTreeEntry) : List String :=
  (allNodes f).map TopicTreeEntry.topic

theorem root_mem_allNodes :
    ∀ (f : List TopicTreeEntry) (e : TopicTreeEntry), e ∈ f → e ∈ allNodes f
  | .mk t l m p tb mb children :: rest, e, he => by
      simp only [allNodes, List.mem_cons, List.mem_append]
      rcases List.mem_cons.mp he with h | h
      · exact Or.inl h
      · exact Or.inr (Or.inr (root_mem_allNodes rest e h))

theorem child_mem_allNodes :
    ∀ (f : List TopicTreeEntry) (p c : TopicTreeEntry),
      p ∈ allNodes f → c ∈ p.entries_below → c ∈ allNodes f
  | [], p, c, hp, _ => by simp [allNodes] at hp
  | .mk t l m pl tb mb children :: rest, p, c, hp, hc => by
      simp only [allNodes, List.mem_cons, List.mem_append] at hp ⊢
      rcases hp with h | h | h
      · subst h
        simp only [TopicTreeEntry.entries_below] at hc
        exact Or.inr (Or.inl (root_mem_allNodes children c hc))
      · exact Or.inr (Or.inl (child_mem_allNodes children p c h hc))
      · exact Or.inr (Or.inr (child_mem_allNodes rest p c h hc))

theorem getVisible_subset_allNodes (opened : List String) :
    ∀ (f : List TopicTreeEntry) (x : TopicTreeEntry),
      x ∈ getVisible opened f → x ∈ allNodes f
  | [], x, hx => by simp [getVisible] at hx
  | .mk t l m p tb mb children :: rest, x, hx => by
      simp only [getVisible, List.mem_cons, List.mem_append] at hx
      simp only [allNodes, List.mem_cons, List.mem_append]
      rcases hx with h | h | h
      · exact Or.inl h
      · by_cases ht : t ∈ opened
        · rw [if_pos ht] at h
          exact Or.inr (Or.inl (getVisible_subset_allNodes opened children x h))
        · rw [if_neg ht] at h
          simp at h
      · exact Or.inr (Or.inr (getVisible_subset_allNodes opened rest x h))

theorem mem_of_getElem_some {α : Type} {l : List α} {n : Nat} {a : α}
    (h : l[n]? = some a) : a ∈ l :=
  List.mem_iff_getElem?.mpr ⟨n, h⟩

theorem topic_mem_forestTopics {f : List TopicTreeEntry} {x : TopicTreeEntry}
    (hx : x ∈ allNodes f) : x.topic ∈ forestTopics f :=
  List.mem_map_of_mem TopicTreeEntry.topic hx

/-- C1: get_visible produces the pre-order depth-first flattening in which
every root-level node appears and a node's children are appended,
recursively, exactly when its own topic is a member of the open-set;
on the example forest with open-set containing foo it yields
foo, foo/bar, foo/test, test. -/
theorem getVisible_preorder_open_set :
    (∀ (opened : List String) (f : List TopicTreeEntry),
        getVisible opened f = visibleSpecF opened f) ∧
    (∀ (opened : List String) (f : List TopicTreeEntry) (e : TopicTreeEntry),
        e ∈ f → e ∈ getVisible opened f) ∧
    (getVisible ["foo"] TopicTreeEntry.examples).map TopicTreeEntry.topic =
      ["foo", "foo/bar", "foo/test", "test"] :=
  ⟨getVisible_eq_visibleSpecF, root_mem_getVisible, by
    simp [getVisible, TopicTreeEntry.examples, TopicTreeEntry.topic]⟩

/-- Witness for C1 at a concrete input: the root node test is a member of
the visible sequence of the example forest under the empty open-set. -/
theorem getVisible_preorder_open_set_witness :
    TopicTreeEntry.mk "test" "test" 2 (some [67]) 0 0 [] ∈
      getVisible [] TopicTreeEntry.examples :=
  getVisible_preorder_open_set.2.1 [] TopicTreeEntry.examples _ (by decide)

/-- C3: get_visible with the empty open-set returns exactly the root-level
nodes of the forest, in order, with no descendants included. -/
theorem getVisible_empty_open_set :
    ∀ f : List TopicTreeEntry, getVisible [] f = f
  | [] => by simp [getVisible]
  | .mk t l m p tb mb children :: rest => by
      simp [getVisible, getVisible_empty_open_set rest]

/-- C9: get_visible is monotone in the open-set: every node visible under
an open-set stays visible under any superset of it. -/
theorem getVisible_monotone (o o2 : List String)
    (hsub : ∀ t, t ∈ o → t ∈ o2) :
    ∀ (f : List TopicTreeEntry) (x : TopicTreeEntry),
      x ∈ getVisible o f → x ∈ getVisible o2 f
  | [], x, hx => by simp [getVisible] at hx
  | .mk t l m p tb mb children :: rest, x, hx => by
      simp only [getVisible, List.mem_cons, List.mem_append] at hx
      rcases hx with h | h | h
      · subst h; simp [getVisible]
      · have ht : t ∈ o := by
          by_contra hc
          simp [hc] at h
        have hx2 : x ∈ getVisible o children := by
          simpa [ht] using h
        simp only [getVisible, List.mem_cons, List.mem_append, hsub t ht,
          if_pos]
        exact Or.inr (Or.inl (getVisible_monotone o o2 hsub children x hx2))
      · simp only [getVisible, List.mem_cons, List.mem_append]
        exact Or.inr (Or.inr (getVisible_monotone o o2 hsub rest x h))

/-- Witness for C9 at a concrete input: the foo root, visible under the
empty open-set, stays visible under the open-set containing foo. -/
theorem getVisible_monotone_witness :
    TopicTreeEntry.mk "foo" "foo" 0 none 2 2
        [ TopicTreeEntry.mk "foo/bar" "bar" 1 (some [68]) 0 0 [],
          TopicTreeEntry.mk "foo/test" "test" 1 (some [66]) 0 0 [] ] ∈
      getVisible ["foo"] TopicTreeEntry.examples :=
  getVisible_monotone [] ["foo"] (by simp) TopicTreeEntry.examples _
    (by simp [getVisible, TopicTreeEntry.examples])

/-- C4: in a forest whose topics are unique (the data model keeps topic as
a globally unique key), whenever a node that has a parent appears in the
visible sequence, its parent appears at a strictly earlier position. -/
theorem getVisible_parent_before (opened : List String) :
    ∀ (f : List TopicTreeEntry) (p c : TopicTreeEntry) (j : Nat),
      (forestTopics f).Nodup →
      p ∈ allNodes f → c ∈ p.entries_below →
      (getVisible opened f)[j]? = some c →
      ∃ i, i < j ∧ (getVisible opened f)[i]? = some p
  | [], p, c, j, hnd, hp, hc, hj => by simp [allNodes] at hp
  | .mk t l m pl tb mb children :: rest, p, c, j, hnd, hp, hc, hj => by
      have hftc : forestTopics (.mk t l m pl tb mb children :: rest)
          = t :: (forestTopics children ++ forestTopics rest) := by
        simp [forestTopics, allNodes, TopicTreeEntry.topic]
      rw [hftc] at hnd
      have hnd' := List.nodup_cons.mp hnd
      have ht_notin := hnd'.1
      have hnd_c : (forestTopics children).Nodup := hnd'.2.of_append_left
      have hdisj : (forestTopics children).Disjoint (forestTopics rest) :=
        List.disjoint_of_nodup_append hnd'.2
      have hnd_r : (forestTopics rest).Nodup := hnd'.2.of_append_right
      simp only [allNodes, List.mem_cons, List.mem_append] at hp
      match j with
      | 0 =>
        have hce : c = TopicTreeEntry.mk t l m pl tb mb children := by
          simp only [getVisible, List.getElem?_cons_zero, Option.some.injEq] at hj
          exact hj.symm
        have hct : c.topic = t := by rw [hce]; rfl
        exfalso
        rcases hp with h | h | h
        · subst h
          simp only [TopicTreeEntry.entries_below] at hc
          have : c.topic ∈ forestTopics children :=
            topic_mem_forestTopics (root_mem_allNodes children c hc)
          exact ht_notin (List.mem_append.mpr (Or.inl (hct ▸ this)))
        · have : c.topic ∈ forestTopics children :=
            topic_mem_forestTopics (child_mem_allNodes children p c h hc)
          exact ht_notin (List.mem_append.mpr (Or.inl (hct ▸ this)))
        · have : c.topic ∈ forestTopics rest :=
            topic_mem_forestTopics (child_mem_allNodes rest p c h hc)
          exact ht_notin (List.mem_append.mpr (Or.inr (hct ▸ this)))
      | j' + 1 =>
        simp only [getVisible, List.getElem?_cons_succ] at hj
        by_cases ht : t ∈ opened
        · rw [if_pos ht] at hj
          by_cases hlen : j' < (getVisible opened children).length
          · rw [List.getElem?_append_left hlen] at hj
            rcases hp with h | h | h
            · refine ⟨0, Nat.succ_pos j', ?_⟩
              simp only [getVisible, List.getElem?_cons_zero, h]
            · rcases getVisible_parent_before opened children p c j' hnd_c h hc hj with
                ⟨i, hij, hpi⟩
              refine ⟨i + 1, by omega, ?_⟩
              simp only [getVisible, List.getElem?_cons_succ, if_pos ht]
              rw [List.getElem?_append_left (by omega)]
              exact hpi
            · exfalso
              have h1 : c.topic ∈ forestTopics children :=
                topic_mem_forestTopics
                  (getVisible_subset_allNodes opened children c (mem_of_getElem_some hj))
              have h2 : c.topic ∈ forestTopics rest :=
                topic_mem_forestTopics (child_mem_allNodes rest p c h hc)
              exact hdisj h1 h2
          · rw [List.getElem?_append_right (by omega)] at hj
            rcases hp with h | h | h
            · exfalso
              subst h
              simp only [TopicTreeEntry.entries_below] at hc
              have h1 : c.topic ∈ forestTopics children :=
                topic_mem_forestTopics (root_mem_allNodes children c hc)
              have h2 : c.topic ∈ forestTopics rest :=
                topic_mem_forestTopics
                  (getVisible_subset_allNodes opened rest c (mem_of_getElem_some hj))
              exact hdisj h1 h2
            · exfalso
              have h1 : c.topic ∈ forestTopics children :=
                topic_mem_forestTopics (child_mem_allNodes children p c h hc)
              have h2 : c.topic ∈ forestTopics rest :=
                topic_mem_forestTopics
                  (getVisible_subset_allNodes opened rest c (mem_of_getElem_some hj))
              exact hdisj h1 h2
            · rcases getVisible_parent_before opened rest p c
                  (j' - (getVisible opened children).length) hnd_r h hc hj with
                ⟨i, hij, hpi⟩
              refine ⟨(getVisible opened children).length + i + 1, by omega, ?_⟩
              simp only [getVisible, List.getElem?_cons_succ, if_pos ht]
              rw [List.getElem?_append_right (by omega)]
              have hidx : (getVisible opened children).length + i -
                  (getVisible opened children).length = i := by omega
              rw [hidx]
              exact hpi
        · rw [if_neg ht, List.nil_append] at hj
          rcases hp with h | h | h
          · exfalso
            subst h
            simp only [TopicTreeEntry.entries_below] at hc
            have h1 : c.topic ∈ forestTopics children :=
              topic_mem_forestTopics (root_mem_allNodes children c hc)
            have h2 : c.topic ∈ forestTopics rest :=
              topic_mem_forestTopics
                (getVisible_subset_allNodes opened rest c (mem_of_getElem_some hj))
            exact hdisj h1 h2
          · exfalso
            have h1 : c.topic ∈ forestTopics children :=
              topic_mem_forestTopics (child_mem_allNodes children p c h hc)
            have h2 : c.topic ∈ forestTopics rest :=
              topic_mem_forestTopics
                (getVisible_subset_allNodes opened rest c (mem_of_getElem_some hj))
            exact hdisj h1 h2
          · rcases getVisible_parent_before opened rest p c j' hnd_r h hc hj with
              ⟨i, hij, hpi⟩
            refine ⟨i + 1, by omega, ?_⟩
            simp only [getVisible, List.getElem?_cons_succ, if_neg ht, List.nil_append]
            exact hpi

/-- Witness for C4 at a concrete input: in the example forest with foo
opened, the child foo/bar appears at position 1 and its parent foo at a
strictly earlier position. -/
theorem getVisible_parent_before_witness :
    ∃ i, i < 1 ∧ (getVisible ["foo"] TopicTreeEntry.examples)[i]? =
      some (TopicTreeEntry.mk "foo" "foo" 0 none 2 2
        [ TopicTreeEntry.mk "foo/bar" "bar" 1 (some [68]) 0 0 [],
          TopicTreeEntry.mk "foo/test" "test" 1 (some [66]) 0 0 [] ]) :=
  getVisible_parent_before ["foo"] TopicTreeEntry.examples
    (TopicTreeEntry.mk "foo" "foo" 0 none 2 2
      [ TopicTreeEntry.mk "foo/bar" "bar" 1 (some [68]) 0 0 [],
        TopicTreeEntry.mk "foo/test" "test" 1 (some [66]) 0 0 [] ])
    (TopicTreeEntry.mk "foo/bar" "bar" 1 (some [68]) 0 0 []) 1
    (by
      have h : forestTopics TopicTreeEntry.examples =
          ["foo", "foo/bar", "foo/test", "test"] := by
        simp [forestTopics, allNodes, TopicTreeEntry.examples, TopicTreeEntry.topic]
      rw [h]; decide)
    (by simp [allNodes, TopicTreeEntry.examples])
    (by decide)
    (by simp [getVisible, TopicTreeEntry.examples])

/-- The node carries the count of all its proper descendants and the sum
of the direct message counts of all its proper descendants. -/
def countsOkNode (e : TopicTreeEntry) : Prop :=
  e.topics_below = (allNodes e.entries_below).length ∧
  e.messages_below = ((allNodes e.entries_below).map TopicTreeEntry.messages).sum

/-- The recurrence form of the aggregate-count invariant: the counts equal
the sums, over the direct children, of one plus the child aggregate, and of
the child direct count plus the child aggregate. -/
def recurOkNode (e : TopicTreeEntry) : Prop :=
  e.topics_below = (e.entries_below.map (fun c => 1 + c.topics_below)).sum ∧
  e.messages_below =
    (e.entries_below.map (fun c => c.messages + c.messages_below)).sum

theorem mem_allNodes_iff :
    ∀ (f : List TopicTreeEntry) (x : TopicTreeEntry),
      x ∈ allNodes f ↔ ∃ e ∈ f, x = e ∨ x ∈ allNodes e.entries_below
  | [], x => by simp [allNodes]
  | .mk t l m p tb mb children :: rest, x => by
      simp only [allNodes, List.mem_cons, List.mem_append, mem_allNodes_iff rest x]
      constructor
      · rintro (h | h | ⟨e, he, h⟩)
        · exact ⟨_, Or.inl rfl, Or.inl h⟩
        · exact ⟨_, Or.inl rfl, Or.inr h⟩
        · exact ⟨e, Or.inr he, h⟩
      · rintro ⟨e, he | he, h⟩
        · subst he
          simp only [TopicTreeEntry.entries_below] at h
          tauto
        · exact Or.inr (Or.inr ⟨e, he, h⟩)

theorem length_allNodes :
    ∀ f : List TopicTreeEntry,
      (allNodes f).length =
        (f.map (fun e => 1 + (allNodes e.entries_below).length)).sum
  | [] => by simp [allNodes]
  | .mk t l m p tb mb children :: rest => by
      simp only [allNodes, List.length_cons, List.length_append,
        List.map_cons, List.sum_cons, length_allNodes rest,
        TopicTreeEntry.entries_below]
      omega

theorem msgs_allNodes :
    ∀ f : List TopicTreeEntry,
      ((allNodes f).map TopicTreeEntry.messages).sum =
        (f.map (fun e =>
          e.messages +
            ((allNodes e.entries_below).map TopicTreeEntry.messages).sum)).sum
  | [] => by simp [allNodes]
  | .mk t l m p tb mb children :: rest => by
      simp only [allNodes, List.map_cons, List.map_append, List.sum_cons,
        List.sum_append, msgs_allNodes rest, TopicTreeEntry.entries_below,
        TopicTreeEntry.messages]
      omega

theorem recurOk_of_countsOk (e : TopicTreeEntry) (he : countsOkNode e)
    (hch : ∀ c ∈ e.entries_below, countsOkNode c) : recurOkNode e := by
  constructor
  · rw [he.1, length_allNodes]
    exact congrArg List.sum
      (List.map_congr_left (fun c hc => by rw [(hch c hc).1]))
  · rw [he.2, msgs_allNodes]
    exact congrArg List.sum
      (List.map_congr_left (fun c hc => by rw [(hch c hc).2]))

/-- Lexicographic comparison of the character lists of two strings,
evaluable in the kernel. -/
def charsLe : List Char → List Char → Bool
  | [], _ => true
  | _ :: _, [] => false
  | a :: as, b :: bs => if a = b then charsLe as bs else decide (a < b)

def insertSorted (s : String) : List String → List String
  | [] => [s]
  | x :: xs => if charsLe s.data x.data then s :: x :: xs else x :: insertSorted s xs

def sortStrings : List String → List String
  | [] => []
  | x :: xs => insertSorted x (sortStrings xs)

/-- Remove later duplicates, keeping the first occurrence of each string. -/
def dedupFirst : List String → List String
  | [] => []
  | x :: xs => x :: (dedupFirst xs).filter (fun y => !(y == x))

/-- Modelled from the spec: the Tree Builder (mqtt_history::history_to_tmlp
together with topic_view::get_tmlp_as_tree) is not under src/.  Following
section 4.1 of the spec: group all topic paths by shared first segment,
recurse on the remaining suffixes to build the children, take the direct
message count and last payload of a node only from an exact match of the
accumulated prefix against the input, and sort each sibling group
deterministically before emission.  Topic paths are represented by their
delimiter-split segment lists; each input row is a path with its direct
message count and most recent payload bytes.  The first argument bounds the
recursion depth; the top-level entry point passes the maximum path length
of the input, which always suffices. -/
def buildForestAux :
    Nat → List String → List (List String × Nat × Option (List Nat)) →
      List TopicTreeEntry
  | 0, _, _ => []
  | d + 1, pfx, input =>
    let heads := sortStrings (dedupFirst (input.filterMap (fun q => q.1.head?)))
    heads.map fun s =>
      let own := input.find? (fun q => q.1 == [s])
      let sub := (input.filter
        (fun q => q.1.head? == some s && decide (2 ≤ q.1.length))).map
          (fun q => (q.1.tail, q.2))
      let children := buildForestAux d (pfx ++ [s]) sub
      TopicTreeEntry.mk (String.intercalate "/" (pfx ++ [s])) s
        (match own with | some q => q.2.1 | none => 0)
        (match own with | some q => q.2.2 | none => none)
        ((allNodes children).length)
        (((allNodes children).map TopicTreeEntry.messages).sum)
        children

/-- Modelled from the spec: top-level Tree Builder entry point, building the
forest from the whole input with sufficient recursion depth. -/
def buildForest (input : List (List String × Nat × Option (List Nat))) :
    List TopicTreeEntry :=
  buildForestAux (input.foldr (fun q acc => max q.1.length acc) 0) [] input

theorem countsOk_buildForestAux :
    ∀ (d : Nat) (pfx : List String)
      (input : List (List String × Nat × Option (List Nat)))
      (e : TopicTreeEntry),
      e ∈ allNodes (buildForestAux d pfx input) → countsOkNode e
  | 0, pfx, input, e, he => by simp [buildForestAux, allNodes] at he
  | d + 1, pfx, input, e, he => by
      rw [mem_allNodes_iff] at he
      rcases he with ⟨r, hr, hcase⟩
      simp only [buildForestAux, List.mem_map] at hr
      rcases hr with ⟨s, hs, hr⟩
      rcases hcase with h | h
      · subst hr
        subst h
        constructor <;> rfl
      · subst hr
        simp only [TopicTreeEntry.entries_below] at h
        exact countsOk_buildForestAux d _ _ e h

theorem allNodes_examples_eq :
    allNodes TopicTreeEntry.examples =
      [ TopicTreeEntry.mk "foo" "foo" 0 none 2 2
          [ TopicTreeEntry.mk "foo/bar" "bar" 1 (some [68]) 0 0 [],
            TopicTreeEntry.mk "foo/test" "test" 1 (some [66]) 0 0 [] ],
        TopicTreeEntry.mk "foo/bar" "bar" 1 (some [68]) 0 0 [],
        TopicTreeEntry.mk "foo/test" "test" 1 (some [66]) 0 0 [],
        TopicTreeEntry.mk "test" "test" 2 (some [67]) 0 0 [] ] := by
  simp [allNodes, TopicTreeEntry.examples]

/-- C2: every node of the example forest, and every node of every forest
produced by the spec-modelled Tree Builder, satisfies the aggregate-count
invariant: topics_below is the sum over direct children of one plus their
topics_below, which is the count of all proper descendants, and
messages_below is the sum over direct children of their direct count plus
their messages_below, which is the sum of direct message counts over all
proper descendants. -/
theorem topics_messages_below_invariant :
    (∀ e ∈ allNodes TopicTreeEntry.examples, recurOkNode e ∧ countsOkNode e) ∧
    (∀ (d : Nat) (pfx : List String)
        (input : List (List String × Nat × Option (List Nat))),
        ∀ e ∈ allNodes (buildForestAux d pfx input),
          recurOkNode e ∧ countsOkNode e) ∧
    (∀ input : List (List String × Nat × Option (List Nat)),
        ∀ e ∈ allNodes (buildForest input),
          recurOkNode e ∧ countsOkNode e) := by
  have haux : ∀ (d : Nat) (pfx : List String)
      (input : List (List String × Nat × Option (List Nat))),
      ∀ e ∈ allNodes (buildForestAux d pfx input),
        recurOkNode e ∧ countsOkNode e := by
    intro d pfx input e he
    have hc := countsOk_buildForestAux d pfx input e he
    exact ⟨recurOk_of_countsOk e hc (fun c hcc =>
      countsOk_buildForestAux d pfx input c
        (child_mem_allNodes _ e c he hcc)), hc⟩
  refine ⟨?_, haux, fun input e he => haux _ _ _ e he⟩
  intro e he
  rw [allNodes_examples_eq] at he
  fin_cases he <;>
    exact ⟨by
        constructor <;>
          simp [recurOkNode, allNodes, TopicTreeEntry.topics_below,
            TopicTreeEntry.messages_below, TopicTreeEntry.messages,
            TopicTreeEntry.entries_below],
      by
        constructor <;>
          simp [countsOkNode, allNodes, TopicTreeEntry.topics_below,
            TopicTreeEntry.messages_below, TopicTreeEntry.messages,
            TopicTreeEntry.entries_below]⟩

/-- Witness for C2 at a concrete input: the foo root node of the example
forest satisfies both forms of the aggregate-count invariant. -/
theorem topics_messages_below_invariant_witness :
    recurOkNode (TopicTreeEntry.mk "foo" "foo" 0 none 2 2
      [ TopicTreeEntry.mk "foo/bar" "bar" 1 (some [68]) 0 0 [],
        TopicTreeEntry.mk "foo/test" "test" 1 (some [66]) 0 0 [] ]) ∧
    countsOkNode (TopicTreeEntry.mk "foo" "foo" 0 none 2 2
      [ TopicTreeEntry.mk "foo/bar" "bar" 1 (some [68]) 0 0 [],
        TopicTreeEntry.mk "foo/test" "test" 1 (some [66]) 0 0 [] ]) :=
  topics_messages_below_invariant.1 _ (by rw [allNodes_examples_eq]; simp)

/-- A UTF-8 continuation byte. -/
def contByte (b : Nat) : Prop := 0x80 ≤ b ∧ b ≤ 0xBF

instance (b : Nat) : Decidable (contByte b) := by unfold contByte; infer_instance

/-- One strict UTF-8 decoding step: decode one scalar value from the front
of the byte list, rejecting overlong forms, surrogates and out-of-range
values, and return it with the remaining bytes. -/
def utf8Step : List Nat → Option (Char × List Nat)
  | [] => none
  | b1 :: rest =>
    if b1 < 0x80 then some (Char.ofNat b1, rest)
    else if 0xC2 ≤ b1 ∧ b1 ≤ 0xDF then
      match rest with
      | b2 :: rest2 =>
        if contByte b2 then
          some (Char.ofNat ((b1 - 0xC0) * 0x40 + (b2 - 0x80)), rest2)
        else none
      | [] => none
    else if 0xE0 ≤ b1 ∧ b1 ≤ 0xEF then
      match rest with
      | b2 :: b3 :: rest3 =>
        if contByte b2 ∧ contByte b3 then
          let cp := (b1 - 0xE0) * 0x1000 + (b2 - 0x80) * 0x40 + (b3 - 0x80)
          if 0x800 ≤ cp ∧ ¬ (0xD800 ≤ cp ∧ cp ≤ 0xDFFF) then
            some (Char.ofNat cp, rest3)
          else none
        else none
      | _ => none
    else if 0xF0 ≤ b1 ∧ b1 ≤ 0xF4 then
      match rest with
      | b2 :: b3 :: b4 :: rest4 =>
        if contByte b2 ∧ contByte b3 ∧ contByte b4 then
          let cp := (b1 - 0xF0) * 0x40000 + (b2 - 0x80) * 0x1000 +
            (b3 - 0x80) * 0x40 + (b4 - 0x80)
          if 0x10000 ≤ cp ∧ cp ≤ 0x10FFFF then some (Char.ofNat cp, rest4)
          else none
        else none
      | _ => none
    else none

/-- Fuelled lossy UTF-8 decoding: one replacement character U+FFFD per
invalid unit, skipping a single byte and continuing.  The fuel is the byte
count, which always suffices because every step consumes at least one
byte. -/
def utf8LossyAux : Nat → List Nat → List Char
  | 0, _ => []
  | _ + 1, [] => []
  | fuel + 1, b :: rest =>
    match utf8Step (b :: rest) with
    | some (c, rest2) => c :: utf8LossyAux fuel rest2
    | none => Char.ofNat 0xFFFD :: utf8LossyAux fuel rest

/-- Modelled from the spec: format::payload_as_utf8 is not under src/.
Section 4.4 of the spec: decode the bytes as UTF-8 text, replacing each
invalid unit with a single visible placeholder character instead of
failing or truncating. -/
def payload_as_utf8 (bytes : List Nat) : String :=
  String.mk (utf8LossyAux bytes.length bytes)

/-- Fuelled strict UTF-8 decoding: fails on any invalid unit. -/
def utf8StrictAux : Nat → List Nat → Option (List Char)
  | _, [] => some []
  | 0, _ :: _ => none
  | fuel + 1, b :: rest =>
    match utf8Step (b :: rest) with
    | some (c, rest2) => (utf8StrictAux fuel rest2).map (fun cs => c :: cs)
    | none => none

/-- Strict UTF-8 decoding of a whole byte list. -/
def utf8Decode (bytes : List Nat) : Option String :=
  (utf8StrictAux bytes.length bytes).map String.mk

/-- Modelled from the spec: the JSON value type of the json crate used by
the payload preview is not under src/.  Object keys stay in source order;
numbers keep their source text, which suffices for a deterministic
pretty-printed rendering. -/
inductive Json : Type where
  | null : Json
  | boolean (b : Bool) : Json
  | str (s : String) : Json
  | num (s : String) : Json
  | arr (elems : List Json) : Json
  | obj (fields : List (String × Json)) : Json

def isWs (c : Char) : Bool :=
  c = ' ' || c = '\n' || c = '\t' || c = '\r'

def skipWs : List Char → List Char
  | [] => []
  | c :: cs => if isWs c then skipWs cs else c :: cs

def hexVal (c : Char) : Option Nat :=
  if '0' ≤ c ∧ c ≤ '9' then some (c.toNat - '0'.toNat)
  else if 'a' ≤ c ∧ c ≤ 'f' then some (c.toNat - 'a'.toNat + 10)
  else if 'A' ≤ c ∧ c ≤ 'F' then some (c.toNat - 'A'.toNat + 10)
  else none

/-- Parse the body of a JSON string literal, the opening quote already
consumed; returns the decoded characters and the input after the closing
quote. -/
def parseStringAux : Nat → List Char → Option (List Char × List Char)
  | 0, _ => none
  | _ + 1, [] => none
  | fuel + 1, c :: cs =>
    if c = '"' then some ([], cs)
    else if c = '\\' then
      match cs with
      | [] => none
      | e :: cs2 =>
        if e = '"' then
          (parseStringAux fuel cs2).map (fun r => ('"' :: r.1, r.2))
        else if e = '\\' then
          (parseStringAux fuel cs2).map (fun r => ('\\' :: r.1, r.2))
        else if e = '/' then
          (parseStringAux fuel cs2).map (fun r => ('/' :: r.1, r.2))
        else if e = 'b' then
          (parseStringAux fuel cs2).map (fun r => (Char.ofNat 8 :: r.1, r.2))
        else if e = 'f' then
          (parseStringAux fuel cs2).map (fun r => (Char.ofNat 12 :: r.1, r.2))
        else if e = 'n' then
          (parseStringAux fuel cs2).map (fun r => ('\n' :: r.1, r.2))
        else if e = 'r' then
          (parseStringAux fuel cs2).map (fun r => ('\r' :: r.1, r.2))
        else if e = 't' then
          (parseStringAux fuel cs2).map (fun r => ('\t' :: r.1, r.2))
        else if e = 'u' then
          match cs2 with
          | h1 :: h2 :: h3 :: h4 :: cs3 =>
            match hexVal h1, hexVal h2, hexVal h3, hexVal h4 with
            | some v1, some v2, some v3, some v4 =>
              let cp := ((v1 * 16 + v2) * 16 + v3) * 16 + v4
              if 0xD800 ≤ cp ∧ cp ≤ 0xDFFF then none
              else (parseStringAux fuel cs3).map
                (fun r => (Char.ofNat cp :: r.1, r.2))
            | _, _, _, _ => none
          | _ => none
        else none
    else (parseStringAux fuel cs).map (fun r => (c :: r.1, r.2))

def isDigit (c : Char) : Bool := decide ('0' ≤ c ∧ c ≤ '9')

def takeDigits : List Char → List Char × List Char
  | [] => ([], [])
  | c :: cs =>
    if isDigit c then
      let r := takeDigits cs
      (c :: r.1, r.2)
    else ([], c :: cs)

def parseFrac : List Char → Option (List Char × List Char)
  | '.' :: cs =>
    match takeDigits cs with
    | ([], _) => none
    | (ds, rest) => some ('.' :: ds, rest)
  | other => some ([], other)

def parseExp : List Char → Option (List Char × List Char)
  | [] => some ([], [])
  | c :: cs =>
    if c = 'e' ∨ c = 'E' then
      let p := match cs with
        | '+' :: t => (['+'], t)
        | '-' :: t => (['-'], t)
        | t => (([] : List Char), t)
      match takeDigits p.2 with
      | ([], _) => none
      | (ds, rest) => some (c :: (p.1 ++ ds), rest)
    else some ([], c :: cs)

/-- Parse a JSON number, returning its source text and the rest of the
input. -/
def parseNumber (input : List Char) : Option (List Char × List Char) :=
  let p := match input with
    | '-' :: cs => ((['-'] : List Char), cs)
    | _ => ([], input)
  match takeDigits p.2 with
  | ([], _) => none
  | (ds, s2) =>
    match parseFrac s2 with
    | none => none
    | some (fr, s3) =>
      match parseExp s3 with
      | none => none
      | some (ex, s4) => some (p.1 ++ ds ++ fr ++ ex, s4)

mutual

/-- Modelled from the spec: a recursive-descent JSON parser standing in for
json::parse of the json crate, which is not under src/.  The fuel bounds
the nesting depth; the entry point passes more fuel than the input length,
which always suffices because each nesting level consumes input. -/
def parseValue : Nat → List Char → Option (Json × List Char)
  | 0, _ => none
  | fuel + 1, input =>
    match skipWs input with
    | [] => none
    | c :: cs =>
      if c = 'n' then
        match cs with
        | 'u' :: 'l' :: 'l' :: rest => some (.null, rest)
        | _ => none
      else if c = 't' then
        match cs with
        | 'r' :: 'u' :: 'e' :: rest => some (.boolean true, rest)
        | _ => none
      else if c = 'f' then
        match cs with
        | 'a' :: 'l' :: 's' :: 'e' :: rest => some (.boolean false, rest)
        | _ => none
      else if c = '"' then
        (parseStringAux (cs.length + 1) cs).map
          (fun r => (.str (String.mk r.1), r.2))
      else if c = '[' then parseArrayRest fuel (skipWs cs)
      else if c = '\x7b' then parseObjectRest fuel (skipWs cs)
      else (parseNumber (c :: cs)).map (fun r => (.num (String.mk r.1), r.2))

/-- After an opening bracket: either an immediate close or the first item. -/
def parseArrayRest : Nat → List Char → Option (Json × List Char)
  | 0, _ => none
  | fuel + 1, input =>
    match input with
    | ']' :: rest => some (.arr [], rest)
    | _ =>
      match parseValue fuel input with
      | none => none
      | some (v, rest) =>
        match parseArrayMore fuel (skipWs rest) with
        | none => none
        | some (vs, rest2) => some (.arr (v :: vs), rest2)

/-- After an array item: a comma and another item, or the close. -/
def parseArrayMore : Nat → List Char → Option (List Json × List Char)
  | 0, _ => none
  | fuel + 1, input =>
    match input with
    | ']' :: rest => some ([], rest)
    | ',' :: rest =>
      match parseValue fuel rest with
      | none => none
      | some (v, rest2) =>
        match parseArrayMore fuel (skipWs rest2) with
        | none => none
        | some (vs, rest3) => some (v :: vs, rest3)
    | _ => none

/-- After an opening brace: either an immediate close or the first field. -/
def parseObjectRest : Nat → List Char → Option (Json × List Char)
  | 0, _ => none
  | fuel + 1, input =>
    match input with
    | '\x7d' :: rest => some (.obj [], rest)
    | '"' :: cs =>
      match parseField fuel cs with
      | none => none
      | some (kv, rest) =>
        match parseObjectMore fuel (skipWs rest) with
        | none => none
        | some (fs, rest2) => some (.obj (kv :: fs), rest2)
    | _ => none

/-- After an object field: a comma and another field, or the close. -/
def parseObjectMore : Nat → List Char → Option (List (String × Json) × List Char)
  | 0, _ => none
  | fuel + 1, input =>
    match input with
    | '\x7d' :: rest => some ([], rest)
    | ',' :: rest =>
      match skipWs rest with
      | '"' :: cs =>
        match parseField fuel cs with
        | none => none
        | some (kv, rest2) =>
          match parseObjectMore fuel (skipWs rest2) with
          | none => none
          | some (fs, rest3) => some (kv :: fs, rest3)
      | _ => none
    | _ => none

/-- One object field, the opening quote of the key already consumed. -/
def parseField : Nat → List Char → Option ((String × Json) × List Char)
  | 0, _ => none
  | fuel + 1, cs =>
    match parseStringAux (cs.length + 1) cs with
    | none => none
    | some (key, rest) =>
      match skipWs rest with
      | ':' :: rest2 =>
        match parseValue fuel rest2 with
        | none => none
        | some (v, rest3) => some ((String.mk key, v), rest3)
      | _ => none

end

/-- Modelled from the spec: format::payload_as_json is not under src/.
Section 4.4 of the spec: attempt to interpret the bytes as UTF-8 encoded
JSON — decode strictly as UTF-8, parse one JSON value, and require that
only whitespace remains. -/
def payload_as_json (bytes : List Nat) : Option Json :=
  match utf8Decode bytes with
  | none => none
  | some s =>
    match parseValue (3 * s.data.length + 3) s.data with
    | none => none
    | some (j, rest) => if skipWs rest = [] then some j else none

def escapeJsonChar (c : Char) : List Char :=
  if c = '"' then ['\\', '"']
  else if c = '\\' then ['\\', '\\']
  else if c = '\n' then ['\\', 'n']
  else if c = '\t' then ['\\', 't']
  else if c = '\r' then ['\\', 'r']
  else [c]

def quoteJson (s : String) : String :=
  String.mk ('"' :: ((s.data.map escapeJsonChar).flatten ++ ['"']))

def indentStr (ind lvl : Nat) : String :=
  String.mk (List.replicate (ind * lvl) ' ')

mutual

/-- Modelled from the spec: the deterministic pretty printer standing in
for json::stringify_pretty of the json crate, which is not under src/:
fixed indentation width, object keys in source order. -/
def prettyJson : Json → Nat → Nat → String
  | .null, _, _ => "null"
  | .boolean true, _, _ => "true"
  | .boolean false, _, _ => "false"
  | .str s, _, _ => quoteJson s
  | .num s, _, _ => s
  | .arr [], _, _ => "[]"
  | .arr (x :: xs), ind, lvl =>
      "[\n" ++ prettyItems (x :: xs) ind (lvl + 1) ++ "\n" ++
        indentStr ind lvl ++ "]"
  | .obj [], _, _ => "\x7b\x7d"
  | .obj (f :: fs), ind, lvl =>
      "\x7b\n" ++ prettyFields (f :: fs) ind (lvl + 1) ++ "\n" ++
        indentStr ind lvl ++ "\x7d"

def prettyItems : List Json → Nat → Nat → String
  | [], _, _ => ""
  | [x], ind, lvl => indentStr ind lvl ++ prettyJson x ind lvl
  | x :: y :: xs, ind, lvl =>
      indentStr ind lvl ++ prettyJson x ind lvl ++ ",\n" ++
        prettyItems (y :: xs) ind lvl

def prettyFields : List (String × Json) → Nat → Nat → String
  | [], _, _ => ""
  | [(k, v)], ind, lvl =>
      indentStr ind lvl ++ quoteJson k ++ ": " ++ prettyJson v ind lvl
  | (k, v) :: g :: fs, ind, lvl =>
      indentStr ind lvl ++ quoteJson k ++ ": " ++ prettyJson v ind lvl ++
        ",\n" ++ prettyFields (g :: fs) ind lvl

end

/-- Modelled from the spec: top-level pretty printing entry point with the
given indentation width. -/
def stringify_pretty (j : Json) (spaces : Nat) : String :=
  prettyJson j spaces 0

/-- The payload preview computation of draw_details
(src/interactive/ui.rs): try the payload bytes as JSON and pretty-print
with indentation two on success; otherwise decode them as UTF-8 with
replacement characters. -/
def detailsPayload (bytes : List Nat) : String :=
  match payload_as_json bytes with
  | some payload => stringify_pretty payload 2
  | none => payload_as_utf8 bytes

/-- The aggregate summary form of the meta string. -/
def aggregateMeta (n m : Nat) : String :=
  "(" ++ toString n ++ " topics, " ++ toString m ++ " messages)"

/-- The meta string of the tree item rendered from an entry
(impl From of TopicTreeEntry for TreeItem in
src/interactive/topic_tree_entry.rs): an aggregate topics/messages summary
when the entry has no payload of its own, a formatted payload preview
otherwise. -/
def metaOf (e : TopicTreeEntry) : String :=
  match e.last_payload with
  | none => aggregateMeta e.topics_below e.messages_below
  | some payload => "= " ++ payload_as_utf8 payload

/-- C5: the meta string of the rendered tree item is the aggregate
topics/messages summary exactly when the node carries no payload of its
own, and is the formatted payload preview otherwise. -/
theorem meta_aggregate_iff_branch (e : TopicTreeEntry) :
    (metaOf e = aggregateMeta e.topics_below e.messages_below ↔
      e.last_payload = none) ∧
    (∀ p, e.last_payload = some p → metaOf e = "= " ++ payload_as_utf8 p) := by
  rcases he : e.last_payload with _ | p
  · exact ⟨⟨fun _ => rfl, fun _ => by simp [metaOf, he]⟩,
      fun p hp => by cases hp⟩
  · have hm : metaOf e = "= " ++ payload_as_utf8 p := by simp [metaOf, he]
    refine ⟨⟨fun h => ?_, fun h => by cases h⟩,
      fun q hq => by
        injection hq with hq
        rw [hq] at hm
        exact hm⟩
    exfalso
    have h1 : ("= " ++ payload_as_utf8 p).data.head? = some '=' := by
      rw [String.data_append]
      rfl
    have h2 : (aggregateMeta e.topics_below e.messages_below).data.head? =
        some '(' := by
      unfold aggregateMeta
      rw [String.data_append, String.data_append, String.data_append,
        String.data_append]
      rfl
    rw [hm] at h
    rw [h, h2] at h1
    cases h1

/-- Witness for C5 at a concrete input: the example node test with payload
bytes of the string C has the payload-preview meta string. -/
theorem meta_aggregate_iff_branch_witness :
    metaOf (TopicTreeEntry.mk "test" "test" 2 (some [67]) 0 0 []) =
      "= " ++ payload_as_utf8 [67] :=
  (meta_aggregate_iff_branch
    (TopicTreeEntry.mk "test" "test" 2 (some [67]) 0 0 [])).2 [67] rfl

/-- C6: the draw_details preview first tries the payload bytes as UTF-8
encoded JSON, rendering the deterministic pretty-printed form with fixed
indentation two on success; otherwise it falls back to the lossy UTF-8
decoding with one replacement character per invalid unit, so the preview
is defined for every byte sequence. -/
theorem details_payload_policy :
    (∀ (bytes : List Nat) (j : Json), payload_as_json bytes = some j →
        detailsPayload bytes = stringify_pretty j 2) ∧
    (∀ bytes : List Nat, payload_as_json bytes = none →
        detailsPayload bytes = payload_as_utf8 bytes) ∧
    (∀ bytes : List Nat, payload_as_utf8 bytes =
        String.mk (utf8LossyAux bytes.length bytes)) := by
  refine ⟨fun bytes j hj => ?_, fun bytes hn => ?_, fun bytes => rfl⟩
  · unfold detailsPayload
    rw [hj]
  · unfold detailsPayload
    rw [hn]

/-- Witness for C6 at concrete inputs: the two-byte JSON object payload is
pretty-printed, and the single invalid byte 255 falls back to the lossy
decoding. -/
theorem details_payload_policy_witness :
    detailsPayload [123, 125] = stringify_pretty (Json.obj []) 2 ∧
    detailsPayload [255] = payload_as_utf8 [255] :=
  ⟨details_payload_policy.1 [123, 125] (Json.obj []) rfl,
    details_payload_policy.2.1 [255] rfl⟩

/-- A history entry, reduced to the payload bytes of one received message
(the packet payload of mqtt_history::HistoryEntry). -/
abbrev HistoryEntry := List Nat

/-- The per-topic message history snapshot guarded by the mutex. -/
abbrev History := List (String × List HistoryEntry)

/-- Look a topic up in the history snapshot. -/
def lookupHistory (h : History) (topic : String) : Option (List HistoryEntry) :=
  (h.find? (fun q => q.1 == topic)).map (fun q => q.2)

/-- Modelled from the spec: the TreeState of the external tui-tree-widget
crate, keeping the set of opened tree-index identifiers and the selected
identifier.  Opening the empty identifier does nothing, and the empty
selected identifier means no selection — the contract the stale-topic
handling relies on. -/
structure TreeState : Type where
  opened : List (List Nat)
  selected : List Nat
deriving DecidableEq

/-- TreeState::close_all: forget every opened identifier. -/
def TreeState.close_all (s : TreeState) : TreeState := { s with opened := [] }

/-- TreeState::open: open a tree-index identifier; the empty identifier and
identifiers already open are ignored. -/
def TreeState.openIdent (s : TreeState) (ident : List Nat) : TreeState :=
  if ident = [] then s
  else if ident ∈ s.opened then s
  else { s with opened := ident :: s.opened }

/-- TreeState::select: set the selected identifier; the empty identifier
means no selection. -/
def TreeState.select (s : TreeState) (ident : List Nat) : TreeState :=
  { s with selected := ident }

/-- Modelled from the spec: topic_view::get_identifier_of_topic is not
under src/.  Section 4.3 of the spec: translate a stable topic identifier
to its position identifier in the freshly built tree, or none when the
topic no longer exists there.  The helper carries the index of the first
entry within its sibling list. -/
def findIdentAux : Nat → List TopicTreeEntry → String → Option (List Nat)
  | _, [], _ => none
  | i, .mk t _ _ _ _ _ children :: rest, topic =>
    if t = topic then some [i]
    else
      match findIdentAux 0 children topic with
      | some ident => some (i :: ident)
      | none => findIdentAux (i + 1) rest topic

/-- Modelled from the spec: entry point of the topic-to-identifier
resolution. -/
def get_identifier_of_topic (entries : List TopicTreeEntry) (topic : String) :
    Option (List Nat) :=
  findIdentAux 0 entries topic

/-- The open/selection resolution of draw_main (src/interactive/ui.rs):
close all opened identifiers, re-open the identifier of every persisted
opened topic (an absent topic resolves to the default empty identifier),
and select the identifier of the selected topic (or the default empty
identifier when it is absent or nothing is selected). -/
def resolveState (tree : List TopicTreeEntry) (opened_topics : List String)
    (selected_topic : Option String) (state : TreeState) : TreeState :=
  let s1 := opened_topics.foldl
    (fun st topic =>
      st.openIdent ((get_identifier_of_topic tree topic).getD []))
    state.close_all
  s1.select
    ((selected_topic.bind (fun t => get_identifier_of_topic tree t)).getD [])

/-- The outcome of one frame: a rendered value, a returned error, or a
Rust panic. -/
inductive DrawResult (α : Type) : Type where
  | ok (value : α) : DrawResult α
  | err (message : String) : DrawResult α
  | panicked (message : String) : DrawResult α
deriving DecidableEq

/-- The fields of interactive::app::App that draw_main reads.  The result
of locking the shared history mutex is modelled as either the snapshot or
the poison-error message. -/
structure App : Type where
  history_lock : Except String History
  opened_topics : List String
  selected_topic : Option String
  topic_overview_state : TreeState

/-- Split a topic path into its slash-separated segments. -/
def splitSegsAux : List Char → List Char → List String
  | [], acc => [String.mk acc.reverse]
  | c :: cs, acc =>
    if c = '/' then String.mk acc.reverse :: splitSegsAux cs []
    else splitSegsAux cs (c :: acc)

def splitTopic (t : String) : List String := splitSegsAux t.data []

/-- draw_details (src/interactive/ui.rs): take the last history entry —
panicking, like Option::unwrap, when the history slice is empty — and
render its payload preview. -/
def drawDetails (topic_history : List HistoryEntry) : DrawResult String :=
  match topic_history.getLast? with
  | none => .panicked "called Option::unwrap on a None value"
  | some last => .ok (detailsPayload last)

/-- draw_main (src/interactive/ui.rs): lock the history, propagating a
formatted error when the lock is poisoned; build the topic tree from the
snapshot; re-resolve the persisted opened and selected topics against it;
and when the selected topic has a history entry, draw the details pane.
The outcome is the resolved tree state with the details preview, when one
was drawn. -/
def drawMain (app : App) : DrawResult (TreeState × Option String) :=
  match app.history_lock with
  | .error e => .err ("failed to aquire lock of mqtt history: " ++ e)
  | .ok history =>
    let tree_items := buildForest (history.map
      (fun q => (splitTopic q.1, q.2.length, q.2.getLast?)))
    let state := resolveState tree_items app.opened_topics app.selected_topic
      app.topic_overview_state
    match app.selected_topic.bind (fun t => lookupHistory history t) with
    | some topic_history =>
      match drawDetails topic_history with
      | .ok preview => .ok (state, some preview)
      | .err m => .err m
      | .panicked m => .panicked m
    | none => .ok (state, none)

/-- draw (src/interactive/ui.rs): draw the info header, which cannot fail,
then the main area, propagating its outcome. -/
def draw (app : App) : DrawResult (TreeState × Option String) := drawMain app

theorem findIdentAux_ne_some_nil :
    ∀ (i : Nat) (f : List TopicTreeEntry) (topic : String),
      findIdentAux i f topic ≠ some []
  | i, [], topic => by simp [findIdentAux]
  | i, .mk t l m p tb mb children :: rest, topic => by
      simp only [findIdentAux]
      by_cases ht : t = topic
      · simp [ht]
      · rw [if_neg ht]
        rcases hch : findIdentAux 0 children topic with _ | ident
        · exact findIdentAux_ne_some_nil (i + 1) rest topic
        · simp

theorem findIdentAux_eq_none_iff :
    ∀ (i : Nat) (f : List TopicTreeEntry) (topic : String),
      findIdentAux i f topic = none ↔ topic ∉ forestTopics f
  | i, [], topic => by simp [findIdentAux, forestTopics, allNodes]
  | i, .mk t l m p tb mb children :: rest, topic => by
      have hftc : forestTopics (.mk t l m p tb mb children :: rest) =
          t :: (forestTopics children ++ forestTopics rest) := by
        simp [forestTopics, allNodes, TopicTreeEntry.topic]
      rw [hftc]
      simp only [findIdentAux]
      by_cases ht : t = topic
      · simp [ht]
      · rw [if_neg ht]
        rcases hch : findIdentAux 0 children topic with _ | ident
        · have hc := (findIdentAux_eq_none_iff 0 children topic).mp hch
          rw [findIdentAux_eq_none_iff (i + 1) rest topic]
          simp only [List.mem_cons, List.mem_append]
          constructor
          · rintro hr (h | h | h)
            · exact ht h.symm
            · exact hc h
            · exact hr h
          · intro h hr
            exact h (Or.inr (Or.inr hr))
        · have hmem : topic ∈ forestTopics children := by
            by_contra hnm
            rw [(findIdentAux_eq_none_iff 0 children topic).mpr hnm] at hch
            cases hch
          simp [hmem]

/-- The identifier of a topic still present in the tree exists, and the
identifier of an absent topic is none. -/
theorem get_identifier_none_iff (tree : List TopicTreeEntry) (t : String) :
    get_identifier_of_topic tree t = none ↔ t ∉ forestTopics tree :=
  findIdentAux_eq_none_iff 0 tree t

theorem mem_openIdent (st : TreeState) (d id : List Nat) :
    id ∈ (st.openIdent d).opened ↔
      id ∈ st.opened ∨ (id = d ∧ d ≠ []) := by
  unfold TreeState.openIdent
  by_cases h1 : d = []
  · simp [h1]
  · by_cases h2 : d ∈ st.opened
    · rw [if_neg h1, if_pos h2]
      constructor
      · exact fun h => Or.inl h
      · rintro (h | ⟨h, _⟩)
        · exact h
        · rw [h]; exact h2
    · rw [if_neg h1, if_neg h2]
      simp only [List.mem_cons]
      constructor
      · rintro (h | h)
        · exact Or.inr ⟨h, h1⟩
        · exact Or.inl h
      · rintro (h | ⟨h, _⟩)
        · exact Or.inr h
        · exact Or.inl h

theorem mem_resolve_foldl (tree : List TopicTreeEntry) :
    ∀ (ot : List String) (st : TreeState) (id : List Nat),
      id ∈ (ot.foldl (fun st topic =>
          st.openIdent ((get_identifier_of_topic tree topic).getD []))
            st).opened ↔
        id ∈ st.opened ∨ ∃ t ∈ ot, get_identifier_of_topic tree t = some id
  | [], st, id => by simp
  | t0 :: ot, st, id => by
      simp only [List.foldl_cons]
      rw [mem_resolve_foldl tree ot _ id, mem_openIdent]
      rcases hid : get_identifier_of_topic tree t0 with _ | x
      · simp [hid]
      · have hx : x ≠ [] := fun hx0 => by
          rw [hx0] at hid
          exact findIdentAux_ne_some_nil 0 tree t0 hid
        simp only [hid, Option.getD_some, List.mem_cons]
        constructor
        · rintro ((h | ⟨h, _⟩) | ⟨t2, ht2, h2⟩)
          · exact Or.inl h
          · exact Or.inr ⟨t0, Or.inl rfl, by rw [h]; exact hid⟩
          · exact Or.inr ⟨t2, Or.inr ht2, h2⟩
        · rintro (h | ⟨t2, ht2 | ht2, h2⟩)
          · exact Or.inl (Or.inl h)
          · subst ht2
            rw [hid] at h2
            injection h2 with h2
            exact Or.inl (Or.inr ⟨h2.symm, hx⟩)
          · exact Or.inr ⟨t2, ht2, h2⟩

/-- C8: a persisted opened or selected topic absent from the freshly built
tree resolves to no identifier and is treated as collapsed or no selection
respectively — no wrong node is opened or selected and no error is
raised — while the topics still present are re-resolved and applied. -/
theorem stale_topics_resolve_to_default :
    (∀ (tree : List TopicTreeEntry) (t : String),
        get_identifier_of_topic tree t = none ↔ t ∉ forestTopics tree) ∧
    (∀ (tree : List TopicTreeEntry) (ot : List String)
        (sel : Option String) (st : TreeState) (id : List Nat),
        id ∈ (resolveState tree ot sel st).opened ↔
          ∃ t ∈ ot, get_identifier_of_topic tree t = some id) ∧
    (∀ (tree : List TopicTreeEntry) (ot : List String) (st : TreeState),
        (resolveState tree ot none st).selected = []) ∧
    (∀ (tree : List TopicTreeEntry) (ot : List String) (st : TreeState)
        (t : String), get_identifier_of_topic tree t = none →
        (resolveState tree ot (some t) st).selected = []) ∧
    (∀ (tree : List TopicTreeEntry) (ot : List String) (st : TreeState)
        (t : String) (id : List Nat),
        get_identifier_of_topic tree t = some id →
        (resolveState tree ot (some t) st).selected = id) := by
  refine ⟨get_identifier_none_iff, fun tree ot sel st id => ?_,
    fun tree ot st => ?_, fun tree ot st t ht => ?_,
    fun tree ot st t id ht => ?_⟩
  · unfold resolveState
    rw [TreeState.select, mem_resolve_foldl]
    simp [TreeState.close_all]
  · simp [resolveState, TreeState.select]
  · simp [resolveState, TreeState.select, ht]
  · simp [resolveState, TreeState.select, ht]

/-- Witness for C8 at a concrete input: the topic gone is absent from the
example forest, so it resolves to no identifier. -/
theorem stale_topics_resolve_to_default_witness :
    (resolveState TopicTreeEntry.examples [] (some "gone")
        ⟨[], []⟩).selected = [] :=
  stale_topics_resolve_to_default.2.2.2.1 TopicTreeEntry.examples [] ⟨[], []⟩
    "gone"
    (by simp [get_identifier_of_topic, findIdentAux, TopicTreeEntry.examples])

/-- C7: when acquisition of the history lock fails, draw_main — and hence
draw — returns an error value describing the failure instead of
panicking, so the frame is skipped without terminating the process. -/
theorem lock_failure_returns_error (app : App) (e : String)
    (h : app.history_lock = .error e) :
    drawMain app = .err ("failed to aquire lock of mqtt history: " ++ e) ∧
    draw app = .err ("failed to aquire lock of mqtt history: " ++ e) := by
  constructor <;> simp [draw, drawMain, h]

/-- Witness for C7 at a concrete input: an application whose history lock
is poisoned. -/
theorem lock_failure_returns_error_witness :
    drawMain ⟨.error "poisoned", [], none, ⟨[], []⟩⟩ =
        .err ("failed to aquire lock of mqtt history: " ++ "poisoned") ∧
    draw ⟨.error "poisoned", [], none, ⟨[], []⟩⟩ =
        .err ("failed to aquire lock of mqtt history: " ++ "poisoned") :=
  lock_failure_returns_error ⟨.error "poisoned", [], none, ⟨[], []⟩⟩
    "poisoned" rfl

/-- C10: draw_details unconditionally unwraps the last history entry, so
it panics on an empty history slice and is safe exactly when the slice is
nonempty; draw_main does not check for an empty list from history.get, so
a history mapping the selected topic to an empty entry list drives the
frame into the panic. -/
theorem draw_details_empty_history_panics :
    (drawDetails [] = .panicked "called Option::unwrap on a None value") ∧
    (∀ (h : HistoryEntry) (t : List HistoryEntry),
        ∃ s : String, drawDetails (h :: t) = .ok s) ∧
    (∀ (topic : String) (rest : History) (ot : List String) (st : TreeState),
        drawMain ⟨.ok ((topic, []) :: rest), ot, some topic, st⟩ =
          .panicked "called Option::unwrap on a None value") := by
  refine ⟨rfl, fun h t => ?_, fun topic rest ot st => ?_⟩
  · rcases hl : (h :: t).getLast? with _ | last
    · rw [List.getLast?_eq_none_iff] at hl
      cases hl
    · exact ⟨detailsPayload last, by simp [drawDetails, hl]⟩
  · simp [drawMain, lookupHistory, List.find?, drawDetails]

end Mqttui
